import Mathlib

/-!
Verification of the version-normalization and substitution engine of
`update_libs.py`.

The embedding works on `List Char` (Python `str` values are sequences of
Unicode scalar values).  The three regular expressions the program uses are
embedded by direct translation of their backtracking semantics:

* `re.sub(r'(.+)\.([a-z])', r'\1\2', version)` in `convert_openssl_version`;
* `re.match(r'(\d+)\.(\d+)\.(\d+)', version)` in `convert_sqlite_version`
  (here `\d` is modelled as the ASCII digits `0`-`9`; the non-ASCII Unicode
  decimal digits that Python's `\d` additionally accepts do not occur in
  package version strings);
* `re.sub(f'({prefix}_VER=)\S+', f'\1"{version}"', line)` in the
  `__main__` substitution loop.  Note two facts about these Python string
  literals: in the pattern the escape `\S` is not a recognized string
  escape, so the regex engine receives `\S` (non-whitespace) as intended,
  but in the replacement the escape `\1` IS a recognized octal string
  escape, so the regex engine receives the literal character U+0001 rather
  than a backreference.  The replacement text of the running program is
  therefore `"\x01\"" ++ version ++ "\""`, which is what `verReplacement`
  below encodes.
-/

/-- The set of characters matched by Python's regex class `\s` on `str`
patterns (so the source pattern's `\S+` matches a maximal nonempty run of
characters for which this is `false`). -/
def isPySpace (c : Char) : Bool :=
  ([0x09, 0x0a, 0x0b, 0x0c, 0x0d, 0x1c, 0x1d, 0x1e, 0x1f, 0x20, 0x85, 0xa0,
    0x1680, 0x2000, 0x2001, 0x2002, 0x2003, 0x2004, 0x2005, 0x2006, 0x2007,
    0x2008, 0x2009, 0x200a, 0x2028, 0x2029, 0x202f, 0x205f, 0x3000] :
    List Nat).contains c.toNat

/-- The character class `[a-z]` of the OpenSSL pattern. -/
def isLowerAZ (c : Char) : Bool := 'a' ≤ c && c ≤ 'z'

/-! ## convert_openssl_version

`re.sub(r'(.+)\.([a-z])', r'\1\2', version)`: at a match starting position,
the greedy `(.+)` consumes a nonempty newline-free run, then backtracks to
the rightmost position where it is followed by `.` and a lowercase letter;
the whole match is replaced by group 1 followed by group 2, i.e. the dot is
deleted.  `re.sub` applies this at the leftmost match position and then
continues after the match, globally. -/

/-- The base case of the greedy search: `\.([a-z])` matching right here,
with an empty residue of `(.+)` (used only when no later match exists). -/
def dotHere : Char → List Char → Option (List Char × Char × List Char)
  | c, l :: rest =>
    if c = '.' ∧ isLowerAZ l = true then some ([], l, rest) else none
  | _, [] => none

/-- Greedy search for the pattern `\.([a-z])` preceded by a (possibly
empty) newline-free run: returns the longest split `cs = p ++ '.' :: l ++ r`
with `p` newline-free and `l` lowercase.  Longest `p` is preferred, which is
exactly the backtracking order of the greedy `(.+)`. -/
def matchTail : List Char → Option (List Char × Char × List Char)
  | [] => none
  | c :: cs =>
    if c = '\n' then none
    else
      (matchTail cs).elim (dotHere c cs)
        (fun x => some (c :: x.1, x.2.1, x.2.2))

/-- A match of `(.+)\.([a-z])` anchored at the start of `cs`: the leading
`(.+)` must consume at least one (non-newline) character. -/
def matchAt : List Char → Option (List Char × Char × List Char)
  | [] => none
  | c :: cs =>
    if c = '\n' then none
    else (matchTail cs).map (fun x => (c :: x.1, x.2.1, x.2.2))

/-- Global leftmost substitution for `(.+)\.([a-z])` with replacement
`\1\2`, fuelled so that the definition is structurally recursive (the fuel
`cs.length` always suffices). -/
def opensslAux : Nat → List Char → List Char
  | 0, cs => cs
  | n + 1, cs =>
    match matchAt cs with
    | some x => x.1 ++ x.2.1 :: opensslAux n x.2.2
    | none =>
      match cs with
      | [] => []
      | c :: cs' => c :: opensslAux n cs'

/-- `re.sub(r'(.+)\.([a-z])', r'\1\2', ·)` on a character list. -/
def opensslSub (cs : List Char) : List Char := opensslAux cs.length cs

/-- `convert_openssl_version` from `update_libs.py`. -/
def convert_openssl_version (version : String) : String :=
  ⟨opensslSub version.data⟩

/-! ## convert_sqlite_version

`re.match(r'(\d+)\.(\d+)\.(\d+)', version)` anchored at the start; on
failure the subscript of `None` raises, which the embedding renders as
`none`. -/

/-- Numeric value of a decimal digit character. -/
def digitVal (c : Char) : Nat := c.toNat - '0'.toNat

/-- Python `int` on a string of decimal digits. -/
def digitsToNat (ds : List Char) : Nat :=
  ds.foldl (fun a c => a * 10 + digitVal c) 0

/-- Continuation helper for the literal `\.` of the SQLite pattern: the
remaining input must start with a dot. -/
def dotThen (cs : List Char)
    (k : List Char → Option (Nat × Nat × Nat)) : Option (Nat × Nat × Nat) :=
  match cs with
  | c :: cs2 => if c = '.' then k cs2 else none
  | [] => none

/-- `re.match(r'(\d+)\.(\d+)\.(\d+)', ·)` at the start of the input,
returning the integer values of the three groups.  Each `\d+` is a maximal
nonempty digit run (the following `\.` cannot match a digit, so greedy
matching needs no backtracking). -/
def sqliteMatch (cs : List Char) : Option (Nat × Nat × Nat) :=
  if (cs.takeWhile Char.isDigit).isEmpty then none
  else
    dotThen (cs.dropWhile Char.isDigit) (fun cs2 =>
      if (cs2.takeWhile Char.isDigit).isEmpty then none
      else
        dotThen (cs2.dropWhile Char.isDigit) (fun cs3 =>
          if (cs3.takeWhile Char.isDigit).isEmpty then none
          else some (digitsToNat (cs.takeWhile Char.isDigit),
            digitsToNat (cs2.takeWhile Char.isDigit),
            digitsToNat (cs3.takeWhile Char.isDigit))))

/-- Python `'{:02d}'.format n`: zero-pad to width two. -/
def pad2 (n : Nat) : String := if n < 10 then "0" ++ Nat.repr n else Nat.repr n

/-- Python `'{:d}{:02d}{:02d}00'.format (a, b, c)`. -/
def sqliteFormat (a b c : Nat) : String :=
  Nat.repr a ++ pad2 b ++ pad2 c ++ "00"

/-- `convert_sqlite_version` from `update_libs.py`; `none` models the
exception raised when the regex does not match and `None` is subscripted. -/
def convert_sqlite_version (version : String) : Option String :=
  (sqliteMatch version.data).map (fun t => sqliteFormat t.1 t.2.1 t.2.2)

/-! ## pkgver -/

/-- One element of the `results` array of the Arch Linux packages API
response, as the program reads it. -/
structure ArchResult where
  pkgver : String

/-- The result-extraction step of `pkgver` in `update_libs.py`:
`metadata['results'][0]['pkgver']`, with `IndexError` on an empty array
turned into `NameError(f'Package not found: {package}')`. -/
def pkgverLookup (package : String) (results : List ArchResult) :
    Except String String :=
  match results with
  | [] => Except.error ("Package not found: " ++ package)
  | e :: _ => Except.ok e.pkgver

/-! ## The substitution loop

`line = re.sub(f'({prefix}_VER=)\S+', f'\1"{version}"', line)` for each
`(prefix, version)` in the `PACKAGES` mapping. -/

/-- The literal regex text `{prefix}_VER=` (group 1 of the pattern; the
configured prefixes contain no regex metacharacters, so the pattern prefix
is a literal string). -/
def verPattern (pfx : List Char) : List Char :=
  pfx ++ ['_', 'V', 'E', 'R', '=']

/-- The replacement text the regex engine receives: the Python literal
`f'\1"{version}"'` contains the octal escape `\1` = U+0001, not a
backreference, so the engine inserts the literal character U+0001 followed
by the version in double quotes. -/
def verReplacement (version : List Char) : List Char :=
  '\x01' :: '"' :: (version ++ ['"'])

/-- Attempt to match `({pfx}_VER=)\S+` at the start of `cs`: the literal
pattern must be a prefix and must be followed by at least one
non-whitespace character; the greedy `\S+` consumes the maximal run.
Returns the remainder after the match. -/
def tryMatch (pat cs : List Char) : Option (List Char) :=
  if pat.isPrefixOf cs then
    if ((cs.drop pat.length).takeWhile (fun c => !isPySpace c)).isEmpty then
      none
    else some ((cs.drop pat.length).dropWhile (fun c => !isPySpace c))
  else none

/-- `re.sub` for the pattern `({pfx}_VER=)\S+` with a fixed replacement
text `R`: scan left to right, replace each (nonempty) match, continue after
it; fuelled for structural recursion (fuel `cs.length` always suffices). -/
def subAux (pat R : List Char) : Nat → List Char → List Char
  | 0, cs => cs
  | n + 1, cs =>
    match tryMatch pat cs with
    | some rest => R ++ subAux pat R n rest
    | none =>
      match cs with
      | [] => []
      | c :: cs' => c :: subAux pat R n cs'

/-- `re.sub(f'({pfx}_VER=)\S+', R, cs)` (global, leftmost). -/
def pySub (pat R cs : List Char) : List Char := subAux pat R cs.length cs

/-- One pass of the `__main__` substitution loop over a single line:
`for prefix, version in PACKAGES.items(): line = re.sub(...)`. -/
def substLine (packages : List (List Char × List Char)) (line : List Char) :
    List Char :=
  packages.foldl
    (fun l pv => pySub (verPattern pv.1) (verReplacement pv.2) l) line

/-! ## Basic facts about `tryMatch` and the fuelled substitution -/

theorem tryMatch_nil (pat : List Char) : tryMatch pat [] = none := by
  simp [tryMatch]

theorem tryMatch_some_lt (pat cs rest : List Char)
    (h : tryMatch pat cs = some rest) : rest.length < cs.length := by
  unfold tryMatch at h
  split at h
  · split at h
    · exact absurd h (by simp)
    · rename_i hne
      have h' := Option.some.inj h
      have hsplit := congrArg List.length
        (List.takeWhile_append_dropWhile (fun c => !isPySpace c)
          (cs.drop pat.length))
      simp only [List.length_append] at hsplit
      have htk : ((cs.drop pat.length).takeWhile
          (fun c => !isPySpace c)).length ≠ 0 := by
        intro h0
        exact hne (by simp [List.isEmpty_iff, List.length_eq_zero.mp h0])
      have hd := List.length_drop pat.length cs
      have : rest.length =
          ((cs.drop pat.length).dropWhile (fun c => !isPySpace c)).length :=
        by rw [← h']
      omega
  · exact absurd h (by simp)

theorem subAux_fuel (pat R : List Char) :
    ∀ n m cs, cs.length ≤ n → cs.length ≤ m →
      subAux pat R n cs = subAux pat R m cs := by
  intro n
  induction n with
  | zero =>
    intro m cs hn _
    have hcs : cs = [] := by
      cases cs with
      | nil => rfl
      | cons a l => simp at hn
    subst hcs
    cases m with
    | zero => rfl
    | succ m => simp [subAux, tryMatch_nil]
  | succ n ih =>
    intro m cs hn hm
    cases m with
    | zero =>
      have hcs : cs = [] := by
        cases cs with
        | nil => rfl
        | cons a l => simp at hm
      subst hcs
      simp [subAux, tryMatch_nil]
    | succ m =>
      show subAux pat R (n + 1) cs = subAux pat R (m + 1) cs
      cases h : tryMatch pat cs with
      | some rest =>
        have hlt := tryMatch_some_lt pat cs rest h
        have h1 : rest.length ≤ n := by omega
        have h2 : rest.length ≤ m := by omega
        simp only [subAux, h]
        rw [ih m rest h1 h2]
      | none =>
        cases cs with
        | nil => simp [subAux, tryMatch_nil]
        | cons c cs' =>
          simp only [List.length_cons] at hn hm
          simp only [subAux, h]
          rw [ih m cs' (by omega) (by omega)]

theorem subAux_eq_pySub (pat R : List Char) (n : Nat) (cs : List Char)
    (h : cs.length ≤ n) : subAux pat R n cs = pySub pat R cs :=
  subAux_fuel pat R n cs.length cs h le_rfl

theorem pySub_nil (pat R : List Char) : pySub pat R [] = [] := rfl

theorem pySub_match (pat R cs rest : List Char)
    (h : tryMatch pat cs = some rest) :
    pySub pat R cs = R ++ pySub pat R rest := by
  have hlt := tryMatch_some_lt pat cs rest h
  have hcs : cs ≠ [] := by
    intro e
    rw [e, tryMatch_nil] at h
    cases h
  obtain ⟨c, cs', rfl⟩ : ∃ c cs', cs = c :: cs' := by
    cases cs with
    | nil => exact absurd rfl hcs
    | cons c cs' => exact ⟨c, cs', rfl⟩
  show subAux pat R (c :: cs').length (c :: cs') = _
  simp only [List.length_cons, subAux, h]
  rw [subAux_eq_pySub pat R cs'.length rest
    (by simpa using Nat.lt_succ_iff.mp (by simpa using hlt))]

theorem pySub_skip (pat R : List Char) (c : Char) (cs' : List Char)
    (h : tryMatch pat (c :: cs') = none) :
    pySub pat R (c :: cs') = c :: pySub pat R cs' := by
  show subAux pat R (c :: cs').length (c :: cs') = _
  simp only [List.length_cons, subAux, h]
  rfl

/-- Does `({pat})\S+` match anywhere in `cs` (at any start position)? -/
def hasVerMatch (pat : List Char) : List Char → Bool
  | [] => false
  | c :: cs => (tryMatch pat (c :: cs)).isSome || hasVerMatch pat cs

theorem pySub_id_of_no_match (pat R cs : List Char)
    (h : hasVerMatch pat cs = false) : pySub pat R cs = cs := by
  induction cs with
  | nil => rfl
  | cons c cs' ih =>
    simp only [hasVerMatch, Bool.or_eq_false_iff] at h
    obtain ⟨h1, h2⟩ := h
    have hn : tryMatch pat (c :: cs') = none :=
      Option.not_isSome_iff_eq_none.mp (by simp [h1])
    rw [pySub_skip pat R c cs' hn, ih h2]

/-! ## Characterization of `tryMatch` -/

theorem takeWhile_append_stop {α : Type} (p : α → Bool) (t rest : List α)
    (h1 : ∀ c ∈ t, p c = true)
    (h2 : ∀ w, rest.head? = some w → p w = false) :
    (t ++ rest).takeWhile p = t ∧ (t ++ rest).dropWhile p = rest := by
  have hr1 : rest.takeWhile p = [] := by
    cases rest with
    | nil => rfl
    | cons w r' => rw [List.takeWhile_cons_of_neg]; simp [h2 w rfl]
  have hr2 : rest.dropWhile p = rest := by
    cases rest with
    | nil => rfl
    | cons w r' => rw [List.dropWhile_cons_of_neg]; simp [h2 w rfl]
  constructor
  · rw [List.takeWhile_append_of_pos h1, hr1, List.append_nil]
  · rw [List.dropWhile_append_of_pos h1, hr2]

theorem tryMatch_some_decomp (pat cs rest : List Char)
    (h : tryMatch pat cs = some rest) :
    ∃ run, cs = pat ++ run ++ rest ∧ run ≠ [] ∧
      (∀ c ∈ run, isPySpace c = false) ∧
      (∀ w, rest.head? = some w → isPySpace w = true) := by
  unfold tryMatch at h
  split at h
  · rename_i hp
    split at h
    · exact absurd h (by simp)
    · rename_i hne
      have h' := Option.some.inj h
      have hpre : pat <+: cs := List.isPrefixOf_iff_prefix.mp hp
      obtain ⟨t, ht⟩ := hpre
      have hdrop : cs.drop pat.length = t := by
        rw [← ht]; exact List.drop_left _ _
      rw [hdrop] at h' hne
      refine ⟨t.takeWhile (fun c => !isPySpace c), ?_, ?_, ?_, ?_⟩
      · rw [← ht, List.append_assoc, ← h', List.takeWhile_append_dropWhile]
      · intro h0
        exact hne (by simp [List.isEmpty_iff, h0])
      · intro c hc
        have := List.mem_takeWhile_imp hc
        simpa using this
      · intro w hw
        rw [← h'] at hw
        have hh := List.head?_dropWhile_not (fun c => !isPySpace c) t
        rw [hw] at hh
        simpa using hh
  · exact absurd h (by simp)

theorem tryMatch_prepend (pat t rest : List Char) (hne : t ≠ [])
    (hts : ∀ c ∈ t, isPySpace c = false)
    (hr : ∀ w, rest.head? = some w → isPySpace w = true) :
    tryMatch pat (pat ++ (t ++ rest)) = some rest := by
  have hp : pat.isPrefixOf (pat ++ (t ++ rest)) = true :=
    List.isPrefixOf_iff_prefix.mpr (List.prefix_append _ _)
  obtain ⟨htw, hdw⟩ := takeWhile_append_stop (fun c => !isPySpace c) t rest
    (by intro c hc; simp [hts c hc]) (by intro w hw; simp [hr w hw])
  unfold tryMatch
  rw [if_pos hp, List.drop_left, htw, hdw, if_neg]
  simp [List.isEmpty_iff, hne]

theorem tryMatch_ws_head_none (pat : List Char) (hne : pat ≠ [])
    (hns : ∀ c ∈ pat, isPySpace c = false) (w : Char)
    (hw : isPySpace w = true) (cs : List Char) :
    tryMatch pat (w :: cs) = none := by
  obtain ⟨p0, pr, rfl⟩ : ∃ p0 pr, pat = p0 :: pr := by
    cases pat with
    | nil => exact absurd rfl hne
    | cons p0 pr => exact ⟨p0, pr, rfl⟩
  have h0 : isPySpace p0 = false := hns p0 (by simp)
  have hpw : p0 ≠ w := by
    intro e
    rw [e, hw] at h0
    cases h0
  have hnp : ¬ (p0 :: pr).isPrefixOf (w :: cs) = true := by
    rw [List.isPrefixOf_iff_prefix]
    intro hpf
    exact hpw (List.cons_prefix_cons.mp hpf).1
  unfold tryMatch
  rw [if_neg hnp]

/-! ## Properties of `verPattern` and `verReplacement` -/

theorem verPattern_ne_nil (pfx : List Char) : verPattern pfx ≠ [] := by
  simp [verPattern]

theorem verPattern_nonspace (pfx : List Char)
    (hp : ∀ c ∈ pfx, isPySpace c = false) :
    ∀ c ∈ verPattern pfx, isPySpace c = false := by
  intro c hc
  simp only [verPattern, List.mem_append] at hc
  rcases hc with h | h
  · exact hp c h
  · simp only [List.mem_cons, List.not_mem_nil, or_false] at h
    rcases h with rfl | rfl | rfl | rfl | rfl <;> decide

/-! ## `hasVerMatch` helper lemmas -/

theorem hasVerMatch_false_append (pat a b : List Char)
    (h : hasVerMatch pat (a ++ b) = false) : hasVerMatch pat b = false := by
  induction a with
  | nil => exact h
  | cons c a' ih =>
    simp only [List.cons_append, hasVerMatch, Bool.or_eq_false_iff] at h
    exact ih h.2

theorem hasVerMatch_append_of (pat xs t : List Char)
    (hx : ∀ r2, r2 <:+ xs → tryMatch pat (r2 ++ t) = none)
    (ht : hasVerMatch pat t = false) :
    hasVerMatch pat (xs ++ t) = false := by
  induction xs with
  | nil => simpa using ht
  | cons x xs' ih =>
    simp only [List.cons_append, hasVerMatch, Bool.or_eq_false_iff]
    constructor
    · have hc := hx (x :: xs') (List.suffix_refl _)
      simp only [List.cons_append] at hc
      simp [hc]
    · exact ih (fun r2 hr2 => hx r2 (hr2.trans (List.suffix_cons x xs')))

/-! ## Claim theorems: the substitution loop on concrete lines -/

/-- Claim C1 (code bug): on map `{SSL: 1.0.2o}` and line `SSL_VER="1.0.2n"\n`
the substitution loop does NOT produce `SSL_VER="1.0.2o"\n`; because the
replacement literal `f'\1"{version}"'` contains the octal escape `\1`
(U+0001) instead of a backreference, the whole matched token including the
`SSL_VER=` prefix is replaced by `\x01"1.0.2o"`, so the emitted line is
`\x01"1.0.2o"\n` (the terminator is preserved, the prefix is lost). -/
theorem substLine_ssl_eval :
    substLine [("SSL".data, "1.0.2o".data)] "SSL_VER=\"1.0.2n\"\n".data
      = "\x01\"1.0.2o\"\n".data ∧
    substLine [("SSL".data, "1.0.2o".data)] "SSL_VER=\"1.0.2n\"\n".data
      ≠ "SSL_VER=\"1.0.2o\"\n".data := by
  constructor
  · decide
  · decide

/-- Claim C6 (code bug): with map `{CURL: 9, SSL: 8}` and line
`CURL_VER=1 SSL_VER=2`, each token is indeed rewritten independently and
the result does not depend on the order in which the two prefixes are
applied, but the result is `\x01"9" \x01"8"` (the prefixes are destroyed by
the broken backreference), not the claimed `CURL_VER="9" SSL_VER="8"`. -/
theorem substLine_two_prefix_eval :
    substLine [("CURL".data, "9".data), ("SSL".data, "8".data)]
        "CURL_VER=1 SSL_VER=2".data = "\x01\"9\" \x01\"8\"".data ∧
    substLine [("SSL".data, "8".data), ("CURL".data, "9".data)]
        "CURL_VER=1 SSL_VER=2".data = "\x01\"9\" \x01\"8\"".data ∧
    substLine [("CURL".data, "9".data), ("SSL".data, "8".data)]
        "CURL_VER=1 SSL_VER=2".data ≠ "CURL_VER=\"9\" SSL_VER=\"8\"".data := by
  refine ⟨by decide, by decide, by decide⟩

theorem substLine_untouched
    (packages : List (List Char × List Char)) (line : List Char)
    (h : ∀ pv ∈ packages, hasVerMatch (verPattern pv.1) line = false) :
    substLine packages line = line := by
  induction packages with
  | nil => rfl
  | cons pv m ih =>
    show substLine m (pySub (verPattern pv.1) (verReplacement pv.2) line)
      = line
    rw [pySub_id_of_no_match _ _ _ (h pv (by simp))]
    exact ih (fun q hq => h q (by simp [hq]))

/-! ### The scan decomposition of one `re.sub` application

A run of `re.sub` over a line splits it into skipped segments, matched
regions (the literal pattern plus the greedy `\S+` token) and a final
matchless tail; the output copies the skipped segments and the tail
verbatim and replaces every matched region by the replacement text. -/

/-- Reassemble a line from its scan decomposition: for each piece
`(s, tok)`, the skipped segment `s` followed by the matched region
`pat ++ tok`; then the matchless tail `t`. -/
def joinMatches (pat : List Char) (ps : List (List Char × List Char))
    (t : List Char) : List Char :=
  ps.foldr (fun sm acc => sm.1 ++ (pat ++ (sm.2 ++ acc))) t

/-- Reassemble the substitution's output: each skipped segment verbatim,
each matched region replaced by `R`, the tail verbatim. -/
def joinRepl (R : List Char) (ps : List (List Char × List Char))
    (t : List Char) : List Char :=
  ps.foldr (fun sm acc => sm.1 ++ (R ++ acc)) t

/-- The decomposition is exactly the leftmost-greedy scan: every token is a
nonempty non-whitespace run that `tryMatch` accepts at its position (with
exactly that remainder, i.e. the run is maximal), and `tryMatch` fails at
every position inside a skipped segment. -/
def pinned (pat : List Char) : List (List Char × List Char) → List Char →
    Bool
  | [], _ => true
  | sm :: ps', t =>
    (!sm.2.isEmpty) &&
    ((sm.2.all fun c => !isPySpace c) &&
    ((tryMatch pat (pat ++ (sm.2 ++ joinMatches pat ps' t))
        == some (joinMatches pat ps' t)) &&
    ((sm.1.tails.all fun b => b.isEmpty ||
        (tryMatch pat (b ++ (pat ++ (sm.2 ++ joinMatches pat ps' t)))).isNone) &&
    pinned pat ps' t)))

theorem joinMatches_nil (pat t : List Char) : joinMatches pat [] t = t := rfl

theorem joinMatches_cons (pat : List Char) (sm : List Char × List Char)
    (ps : List (List Char × List Char)) (t : List Char) :
    joinMatches pat (sm :: ps) t = sm.1 ++ (pat ++ (sm.2 ++ joinMatches pat ps t)) :=
  rfl

theorem joinRepl_nil (R t : List Char) : joinRepl R [] t = t := rfl

theorem joinRepl_cons (R : List Char) (sm : List Char × List Char)
    (ps : List (List Char × List Char)) (t : List Char) :
    joinRepl R (sm :: ps) t = sm.1 ++ (R ++ joinRepl R ps t) := rfl

/-- Soundness of a pinned decomposition: on a line assembled from it, the
substitution replaces every one of its matched regions. -/
theorem pySub_of_pinned (pat R : List Char) :
    ∀ (ps : List (List Char × List Char)) (t : List Char),
      pinned pat ps t = true → hasVerMatch pat t = false →
      pySub pat R (joinMatches pat ps t) = joinRepl R ps t := by
  intro ps
  induction ps with
  | nil =>
    intro t _ ht
    show pySub pat R t = t
    exact pySub_id_of_no_match pat R t ht
  | cons sm ps' ih =>
    intro t hpin ht
    obtain ⟨s, tok⟩ := sm
    simp only [pinned, Bool.and_eq_true] at hpin
    obtain ⟨h1, h2, h3, h4, h5⟩ := hpin
    have h3' := beq_iff_eq.mp h3
    have htail := ih t h5 ht
    have walk : ∀ s2, (s2.tails.all fun b => b.isEmpty ||
        (tryMatch pat (b ++ (pat ++ (tok ++ joinMatches pat ps' t)))).isNone)
          = true →
        pySub pat R (s2 ++ (pat ++ (tok ++ joinMatches pat ps' t)))
          = s2 ++ (R ++ joinRepl R ps' t) := by
      intro s2
      induction s2 with
      | nil =>
        intro _
        simp only [List.nil_append]
        rw [pySub_match _ _ _ _ h3', htail]
      | cons c s2' ihs =>
        intro hs2
        rw [List.tails_cons, List.all_cons, Bool.and_eq_true] at hs2
        obtain ⟨hf, hrest⟩ := hs2
        simp only [List.isEmpty_cons, Bool.false_or] at hf
        have hnone : tryMatch pat
            (c :: (s2' ++ (pat ++ (tok ++ joinMatches pat ps' t)))) = none := by
          have := Option.isNone_iff_eq_none.mp hf
          simpa [List.cons_append] using this
        show pySub pat R (c :: (s2' ++ (pat ++ (tok ++ joinMatches pat ps' t))))
          = c :: (s2' ++ (R ++ joinRepl R ps' t))
        rw [pySub_skip _ _ _ _ hnone, ihs hrest]
    show pySub pat R (s ++ (pat ++ (tok ++ joinMatches pat ps' t)))
      = s ++ (R ++ joinRepl R ps' t)
    exact walk s h4

/-- Completeness: every line has a pinned scan decomposition realised by
the substitution. -/
theorem pySub_decomp (pat R : List Char) :
    ∀ n cs, cs.length ≤ n → ∃ ps t,
      cs = joinMatches pat ps t ∧ pySub pat R cs = joinRepl R ps t ∧
      pinned pat ps t = true ∧ hasVerMatch pat t = false := by
  intro n
  induction n with
  | zero =>
    intro cs hn
    have hcs : cs = [] := by
      cases cs with
      | nil => rfl
      | cons a l => simp at hn
    subst hcs
    exact ⟨[], [], rfl, by rw [pySub_nil]; rfl, rfl, rfl⟩
  | succ n ih =>
    intro cs hn
    cases h : tryMatch pat cs with
    | some rest =>
      obtain ⟨run, hdec, hrun_ne, hrun_ws, -⟩ :=
        tryMatch_some_decomp pat cs rest h
      have hrest_n : rest.length ≤ n := by
        have := tryMatch_some_lt pat cs rest h
        omega
      obtain ⟨ps', t, hjm, hjr, hpin, hvt⟩ := ih rest hrest_n
      refine ⟨([], run) :: ps', t, ?_, ?_, ?_, hvt⟩
      · rw [joinMatches_cons, ← hjm]
        simpa [List.append_assoc] using hdec
      · rw [pySub_match _ _ _ _ h, joinRepl_cons, hjr]
        simp
      · simp only [pinned, Bool.and_eq_true]
        refine ⟨?_, ?_, ?_, ?_, hpin⟩
        · simp [List.isEmpty_iff, hrun_ne]
        · rw [List.all_eq_true]
          intro c hc
          simp [hrun_ws c hc]
        · rw [beq_iff_eq, ← hjm]
          rw [hdec] at h
          simpa [List.append_assoc] using h
        · rfl
    | none =>
      cases cs with
      | nil => exact ⟨[], [], rfl, by rw [pySub_nil]; rfl, rfl, rfl⟩
      | cons c cs' =>
        have hlen : cs'.length ≤ n := by
          simp only [List.length_cons] at hn
          omega
        obtain ⟨ps, t, hjm, hjr, hpin, hvt⟩ := ih cs' hlen
        cases ps with
        | nil =>
          have ht : cs' = t := by simpa [joinMatches_nil] using hjm
          refine ⟨[], c :: cs', rfl, ?_, rfl, ?_⟩
          · rw [pySub_skip _ _ _ _ h, joinRepl_nil, hjr, joinRepl_nil, ← ht]
          · simp only [hasVerMatch, Bool.or_eq_false_iff]
            exact ⟨by simp [h], by rw [ht]; exact hvt⟩
        | cons sm ps' =>
          refine ⟨(c :: sm.1, sm.2) :: ps', t, ?_, ?_, ?_, hvt⟩
          · rw [joinMatches_cons, hjm, joinMatches_cons]
            simp [List.cons_append]
          · rw [pySub_skip _ _ _ _ h, joinRepl_cons, hjr, joinRepl_cons]
            simp [List.cons_append]
          · simp only [pinned, Bool.and_eq_true] at hpin ⊢
            obtain ⟨h1, h2, h3, h4, h5⟩ := hpin
            refine ⟨h1, h2, h3, ?_, h5⟩
            rw [List.tails_cons, List.all_cons, Bool.and_eq_true]
            refine ⟨?_, h4⟩
            simp only [List.isEmpty_cons, Bool.false_or]
            rw [Option.isNone_iff_eq_none, List.cons_append]
            rw [hjm, joinMatches_cons] at h
            exact h

/-- Claim C8: the substitution loop never alters characters outside the
matched `{prefix}_VER=<token>` regions.  First conjunct, the frame
property over every prefix, value and line: each `re.sub` application the
loop performs decomposes its input line into skipped segments, matched
regions and an unmatched tail (`joinMatches`, with `pinned` certifying that the
decomposition is exactly the leftmost-greedy scan), and its output is the
same skipped segments and the same tail — copied verbatim, in order — with
only the matched regions replaced (`joinRepl`).  Second conjunct: a line on
which no pattern of the map matches anywhere passes through the whole loop
byte-identical, exact terminator and whitespace included. -/
theorem substLine_frame :
    (∀ pfx v line, ∃ ps t,
      line = joinMatches (verPattern pfx) ps t ∧
      pySub (verPattern pfx) (verReplacement v) line
        = joinRepl (verReplacement v) ps t ∧
      pinned (verPattern pfx) ps t = true ∧
      hasVerMatch (verPattern pfx) t = false) ∧
    (∀ (packages : List (List Char × List Char)) (line : List Char),
      (∀ pv ∈ packages, hasVerMatch (verPattern pv.1) line = false) →
      substLine packages line = line) :=
  ⟨fun pfx v line =>
    pySub_decomp (verPattern pfx) (verReplacement v) line.length line
      le_rfl,
   substLine_untouched⟩

/-- Witness for C8: the spec's own example, line `FOO=bar\n` under the map
`{CURL: 9, SSL: 8}`. -/
theorem substLine_frame_witness :
    substLine [("CURL".data, "9".data), ("SSL".data, "8".data)]
      "FOO=bar\n".data = "FOO=bar\n".data :=
  substLine_frame.2 _ _ (by decide)

/-- Claim C9: the result-extraction step of `pkgver` yields the error
`Package not found: <package>` exactly when the `results` array is empty,
and the `pkgver` field of the first element otherwise. -/
theorem pkgverLookup_spec (package : String) (results : List ArchResult) :
    (results = [] →
      pkgverLookup package results
        = Except.error ("Package not found: " ++ package)) ∧
    (∀ e rest, results = e :: rest →
      pkgverLookup package results = Except.ok e.pkgver) := by
  constructor
  · intro h
    subst h
    rfl
  · intro e rest h
    subst h
    rfl

/-- Witness for C9 at the package `curl`. -/
theorem pkgverLookup_spec_witness :
    pkgverLookup "curl" [] = Except.error ("Package not found: " ++ "curl") ∧
    pkgverLookup "curl" [⟨"8.1.2"⟩] = Except.ok "8.1.2" :=
  ⟨(pkgverLookup_spec "curl" []).1 rfl,
   (pkgverLookup_spec "curl" [⟨"8.1.2"⟩]).2 ⟨"8.1.2"⟩ [] rfl⟩

/-- Claim C7: `re.sub` substitutes globally, so when a prefix's pattern
occurs more than once on a line every occurrence is replaced, not just the
first.  First conjunct: for every line presented through its scan
decomposition — arbitrary skipped segments `ps[i].1` (so arbitrary leading,
middle and trailing text), arbitrarily many matched tokens `ps[i].2` and an
arbitrary matchless tail `t` — the substitution loop for that one prefix
rewrites every one of the matched occurrences to the replacement text
(`joinRepl` replaces each element of `ps`, never only the head).  Second
conjunct: every line has such a decomposition, so no line is outside the
first conjunct's scope. -/
theorem substLine_replaces_every_occurrence (pfx v : List Char) :
    (∀ line ps t, line = joinMatches (verPattern pfx) ps t →
      pinned (verPattern pfx) ps t = true →
      hasVerMatch (verPattern pfx) t = false →
      substLine [(pfx, v)] line = joinRepl (verReplacement v) ps t) ∧
    (∀ line, ∃ ps t, line = joinMatches (verPattern pfx) ps t ∧
      pinned (verPattern pfx) ps t = true ∧
      hasVerMatch (verPattern pfx) t = false) := by
  constructor
  · intro line ps t hl hp ht
    subst hl
    show pySub (verPattern pfx) (verReplacement v) _ = _
    exact pySub_of_pinned _ _ ps t hp ht
  · intro line
    obtain ⟨ps, t, hl, -, hp, ht⟩ :=
      pySub_decomp (verPattern pfx) (verReplacement v) line.length line
        le_rfl
    exact ⟨ps, t, hl, hp, ht⟩

/-- Witness for C7: the line `SSL_VER=1 SSL_VER=2` decomposes into two
matched occurrences (the second piece carrying a leading space segment);
both are rewritten. -/
theorem substLine_replaces_every_occurrence_witness :
    substLine [("SSL".data, "8".data)] "SSL_VER=1 SSL_VER=2".data
      = joinRepl (verReplacement "8".data)
          [([], "1".data), ([' '], "2".data)] [] :=
  (substLine_replaces_every_occurrence "SSL".data "8".data).1
    "SSL_VER=1 SSL_VER=2".data [([], "1".data), ([' '], "2".data)] []
    (by decide) (by decide) (by decide)

/-! ## Facts about the OpenSSL pattern -/

theorem matchTail_cons (c : Char) (cs : List Char) :
    matchTail (c :: cs) =
      if c = '\n' then none
      else
        (matchTail cs).elim (dotHere c cs)
          (fun x => some (c :: x.1, x.2.1, x.2.2)) := by
  simp [matchTail]

theorem matchAt_cons (c : Char) (cs : List Char) :
    matchAt (c :: cs) =
      if c = '\n' then none
      else (matchTail cs).map (fun x => (c :: x.1, x.2.1, x.2.2)) := by
  simp [matchAt]

theorem dotHere_some (c : Char) (cs : List Char) (p : List Char) (l : Char)
    (r : List Char) (h : dotHere c cs = some (p, l, r)) :
    c = '.' ∧ p = [] ∧ cs = l :: r ∧ isLowerAZ l = true := by
  cases cs with
  | nil => cases h
  | cons b rest =>
    simp only [dotHere] at h
    by_cases hc : c = '.' ∧ isLowerAZ b = true
    · rw [if_pos hc] at h
      obtain ⟨h1, h2, h3⟩ : ([] : List Char) = p ∧ b = l ∧ rest = r := by
        simpa using h
      subst h1; subst h2; subst h3
      exact ⟨hc.1, rfl, rfl, hc.2⟩
    · rw [if_neg hc] at h
      cases h

theorem matchTail_some (cs : List Char) (p : List Char) (l : Char)
    (r : List Char) (h : matchTail cs = some (p, l, r)) :
    cs = p ++ '.' :: l :: r ∧ isLowerAZ l = true := by
  induction cs generalizing p l r with
  | nil => cases h
  | cons c cs' ih =>
    rw [matchTail_cons] at h
    by_cases hnl : c = '\n'
    · rw [if_pos hnl] at h
      cases h
    · rw [if_neg hnl] at h
      cases hmt : matchTail cs' with
      | some x =>
        obtain ⟨p', l', r'⟩ := x
        rw [hmt] at h
        simp only [Option.elim] at h
        obtain ⟨h1, h2, h3⟩ : c :: p' = p ∧ l' = l ∧ r' = r := by
          simpa using h
        subst h1; subst h2; subst h3
        obtain ⟨hcs, hl⟩ := ih p' l' r' hmt
        rw [hcs]
        exact ⟨rfl, hl⟩
      | none =>
        rw [hmt] at h
        simp only [Option.elim] at h
        obtain ⟨hdot, hp, hcs, hl⟩ := dotHere_some c cs' p l r h
        subst hdot
        subst hp
        rw [hcs]
        exact ⟨rfl, hl⟩

theorem matchAt_some (cs : List Char) (p : List Char) (l : Char)
    (r : List Char) (h : matchAt cs = some (p, l, r)) :
    cs = p ++ '.' :: l :: r ∧ p ≠ [] ∧ isLowerAZ l = true := by
  cases cs with
  | nil => cases h
  | cons c cs' =>
    rw [matchAt_cons] at h
    by_cases hnl : c = '\n'
    · rw [if_pos hnl] at h
      cases h
    · rw [if_neg hnl] at h
      cases hmt : matchTail cs' with
      | none => rw [hmt] at h; cases h
      | some x =>
        obtain ⟨p', l', r'⟩ := x
        rw [hmt] at h
        obtain ⟨h1, h2, h3⟩ : c :: p' = p ∧ l' = l ∧ r' = r := by
          simpa using h
        subst h1; subst h2; subst h3
        obtain ⟨hcs, hl⟩ := matchTail_some cs' p' l' r' hmt
        rw [hcs]
        exact ⟨rfl, by simp, hl⟩

theorem matchAt_some_lt (cs : List Char) (p : List Char) (l : Char)
    (r : List Char) (h : matchAt cs = some (p, l, r)) :
    r.length < cs.length := by
  obtain ⟨hcs, hp, -⟩ := matchAt_some cs p l r h
  have hplen := List.length_pos.mpr hp
  rw [hcs]
  simp [List.length_append]
  omega

theorem matchAt_nil : matchAt [] = none := rfl

theorem opensslAux_fuel :
    ∀ n m cs, cs.length ≤ n → cs.length ≤ m →
      opensslAux n cs = opensslAux m cs := by
  intro n
  induction n with
  | zero =>
    intro m cs hn _
    have hcs : cs = [] := by
      cases cs with
      | nil => rfl
      | cons a l => simp at hn
    subst hcs
    cases m with
    | zero => rfl
    | succ m => simp [opensslAux, matchAt_nil]
  | succ n ih =>
    intro m cs hn hm
    cases m with
    | zero =>
      have hcs : cs = [] := by
        cases cs with
        | nil => rfl
        | cons a l => simp at hm
      subst hcs
      simp [opensslAux, matchAt_nil]
    | succ m =>
      show opensslAux (n + 1) cs = opensslAux (m + 1) cs
      cases h : matchAt cs with
      | some x =>
        obtain ⟨p, l, r⟩ := x
        have hlt := matchAt_some_lt cs p l r h
        simp only [opensslAux, h]
        rw [ih m r (by omega) (by omega)]
      | none =>
        cases cs with
        | nil => simp [opensslAux, matchAt_nil]
        | cons c cs' =>
          simp only [List.length_cons] at hn hm
          simp only [opensslAux, h]
          rw [ih m cs' (by omega) (by omega)]

theorem opensslSub_nil : opensslSub [] = [] := rfl

theorem opensslSub_match (cs : List Char) (p : List Char) (l : Char)
    (r : List Char) (h : matchAt cs = some (p, l, r)) :
    opensslSub cs = p ++ l :: opensslSub r := by
  have hlt := matchAt_some_lt cs p l r h
  have hcs : cs ≠ [] := by
    intro e
    rw [e] at h
    cases h
  obtain ⟨c, cs', rfl⟩ : ∃ c cs', cs = c :: cs' := by
    cases cs with
    | nil => exact absurd rfl hcs
    | cons c cs' => exact ⟨c, cs', rfl⟩
  show opensslAux (c :: cs').length (c :: cs') = _
  simp only [List.length_cons, opensslAux, h]
  rw [opensslAux_fuel cs'.length r.length r
    (by simp only [List.length_cons] at hlt; omega) le_rfl]
  rfl

theorem opensslSub_skip (c : Char) (cs' : List Char)
    (h : matchAt (c :: cs') = none) :
    opensslSub (c :: cs') = c :: opensslSub cs' := by
  show opensslAux (c :: cs').length (c :: cs') = _
  simp only [List.length_cons, opensslAux, h]
  rfl

/-- Does `(.+)\.([a-z])` match anywhere in `cs` (at any start position)? -/
def hasOM : List Char → Bool
  | [] => false
  | c :: cs => (matchAt (c :: cs)).isSome || hasOM cs

theorem opensslSub_id_of_no_match (cs : List Char) (h : hasOM cs = false) :
    opensslSub cs = cs := by
  induction cs with
  | nil => rfl
  | cons c cs' ih =>
    simp only [hasOM, Bool.or_eq_false_iff] at h
    obtain ⟨h1, h2⟩ := h
    have hn : matchAt (c :: cs') = none :=
      Option.not_isSome_iff_eq_none.mp (by simp [h1])
    rw [opensslSub_skip c cs' hn, ih h2]

/-- Is there, anywhere in `cs`, a `.` immediately followed by a lowercase
letter? -/
def hasDotLower : List Char → Bool
  | a :: b :: rest => ((a == '.') && isLowerAZ b) || hasDotLower (b :: rest)
  | _ => false

theorem matchTail_none_of (cs : List Char) (h : hasDotLower cs = false) :
    matchTail cs = none := by
  induction cs with
  | nil => rfl
  | cons c cs' ih =>
    have htail : hasDotLower cs' = false := by
      cases cs' with
      | nil => rfl
      | cons b rest =>
        simp only [hasDotLower, Bool.or_eq_false_iff] at h
        exact h.2
    rw [matchTail_cons, ih htail]
    simp only [Option.elim]
    by_cases hnl : c = '\n'
    · rw [if_pos hnl]
    · rw [if_neg hnl]
      cases cs' with
      | nil => rfl
      | cons b rest =>
        simp only [dotHere]
        have hni : ¬(c = '.' ∧ isLowerAZ b = true) := by
          intro hcc
          simp only [hasDotLower, Bool.or_eq_false_iff] at h
          obtain ⟨h1, -⟩ := h
          rw [hcc.1] at h1
          simp [hcc.2] at h1
        rw [if_neg hni]

theorem matchTail_last (p : List Char) (l : Char) (r : List Char)
    (hp : ∀ c ∈ p, c ≠ '\n') (hl : isLowerAZ l = true)
    (hr : hasDotLower (l :: r) = false) :
    matchTail (p ++ '.' :: l :: r) = some (p, l, r) := by
  induction p with
  | nil =>
    show matchTail ('.' :: l :: r) = _
    rw [matchTail_cons, matchTail_none_of (l :: r) hr]
    rw [if_neg (by decide : ¬('.' : Char) = '\n')]
    simp [dotHere, hl]
  | cons a p' ih =>
    show matchTail (a :: (p' ++ '.' :: l :: r)) = _
    rw [matchTail_cons, ih (fun c hc => hp c (by simp [hc]))]
    rw [if_neg (hp a (by simp))]
    rfl

/-- Claim C2 counterexample: `a.b0` has no trailing `.letter` suffix, yet
`convert_openssl_version` changes it to `ab0`: the pattern
`(.+)\.([a-z])` is not anchored at the end of the string, so an interior
dot followed by a lowercase letter is deleted as well. -/
theorem convert_openssl_interior_dot_cx :
    convert_openssl_version "a.b0" = "ab0" ∧
    convert_openssl_version "a.b0" ≠ "a.b0" := by
  constructor
  · decide
  · decide

/-- Claim C2 (amended): `convert_openssl_version` returns its input
unchanged whenever the pattern `(.+)\.([a-z])` matches nowhere in it, i.e.
whenever the input has no dot that is immediately followed by a lowercase
letter and preceded by at least one non-newline character; in particular
`1.0.2` is returned unchanged (see the witness). -/
theorem convert_openssl_no_match_id (s : String)
    (h : hasOM s.data = false) : convert_openssl_version s = s := by
  show String.mk (opensslSub s.data) = s
  rw [opensslSub_id_of_no_match s.data h]

/-- Witness for amended C2 at the spec's example `1.0.2`. -/
theorem convert_openssl_no_match_id_witness :
    hasOM "1.0.2".data = false ∧
    convert_openssl_version "1.0.2" = "1.0.2" :=
  ⟨by decide, convert_openssl_no_match_id "1.0.2" (by decide)⟩

/-- Claim C3: on inputs `MAJOR.MINOR.PATCH.letter` (the three components
nonempty strings of decimal digits, the trailing letter lowercase),
`convert_openssl_version` deletes exactly the final separator dot:
the greedy `(.+)` backtracks to the last `.`-before-lowercase position,
which here is the final separator, and the replacement `\1\2` drops that
one dot. -/
theorem convert_openssl_strips_final_separator
    (m n p : List Char) (c : Char)
    (hm : m ≠ []) (_hn : n ≠ []) (_hpp : p ≠ [])
    (hdm : ∀ x ∈ m, x.isDigit = true) (hdn : ∀ x ∈ n, x.isDigit = true)
    (hdp : ∀ x ∈ p, x.isDigit = true) (hc : isLowerAZ c = true) :
    opensslSub (m ++ '.' :: (n ++ '.' :: (p ++ ['.', c])))
      = m ++ '.' :: (n ++ '.' :: (p ++ [c])) := by
  obtain ⟨m0, m', rfl⟩ : ∃ m0 m', m = m0 :: m' := by
    cases m with
    | nil => exact absurd rfl hm
    | cons m0 m' => exact ⟨m0, m', rfl⟩
  have hdigit_ne : ∀ x : Char, x.isDigit = true → x ≠ '\n' := by
    intro x hx e
    subst e
    exact absurd hx (by decide)
  have hpre : ∀ x ∈ m' ++ '.' :: (n ++ '.' :: p), x ≠ '\n' := by
    intro x hx
    rcases List.mem_append.mp hx with hx | hx
    · exact hdigit_ne x (hdm x (by simp [hx]))
    · rcases List.mem_cons.mp hx with rfl | hx
      · decide
      · rcases List.mem_append.mp hx with hx | hx
        · exact hdigit_ne x (hdn x hx)
        · rcases List.mem_cons.mp hx with rfl | hx
          · decide
          · exact hdigit_ne x (hdp x hx)
  have hshape : m' ++ '.' :: (n ++ '.' :: (p ++ ['.', c]))
      = (m' ++ '.' :: (n ++ '.' :: p)) ++ '.' :: c :: [] := by
    simp [List.append_assoc]
  have hmt : matchTail (m' ++ '.' :: (n ++ '.' :: (p ++ ['.', c])))
      = some (m' ++ '.' :: (n ++ '.' :: p), c, []) := by
    rw [hshape]
    exact matchTail_last _ c [] hpre hc (by simp [hasDotLower])
  have hma : matchAt (m0 :: (m' ++ '.' :: (n ++ '.' :: (p ++ ['.', c]))))
      = some (m0 :: (m' ++ '.' :: (n ++ '.' :: p)), c, []) := by
    rw [matchAt_cons, if_neg (hdigit_ne m0 (hdm m0 (by simp)))]
    rw [hmt]
    rfl
  rw [List.cons_append, opensslSub_match _ _ _ _ hma, opensslSub_nil]
  simp [List.append_assoc]

/-- Witness for C3 at the spec's example `1.0.2.o`. -/
theorem convert_openssl_strips_final_separator_witness :
    opensslSub (['1'] ++ '.' :: (['0'] ++ '.' :: (['2'] ++ ['.', 'o'])))
      = ['1'] ++ '.' :: (['0'] ++ '.' :: (['2'] ++ ['o'])) :=
  convert_openssl_strips_final_separator ['1'] ['0'] ['2'] 'o'
    (by decide) (by decide) (by decide) (by decide) (by decide) (by decide)
    (by decide)

/-! ## Claims C4 and C5: the SQLite converter -/

/-- Claim C4: on every input that starts with three nonempty dot-separated
digit groups (any non-digit-initial trailing characters ignored),
`convert_sqlite_version` parses the three integers and formats them as the
unpadded decimal major, the two-digit zero-padded minor and patch, and a
literal `00`. -/
theorem convert_sqlite_formats_three_groups
    (d1 d2 d3 rest : List Char)
    (h1 : d1 ≠ []) (h2 : d2 ≠ []) (h3 : d3 ≠ [])
    (hd1 : ∀ c ∈ d1, c.isDigit = true) (hd2 : ∀ c ∈ d2, c.isDigit = true)
    (hd3 : ∀ c ∈ d3, c.isDigit = true)
    (hrest : ∀ w, rest.head? = some w → w.isDigit = false) :
    convert_sqlite_version ⟨d1 ++ '.' :: (d2 ++ '.' :: (d3 ++ rest))⟩
      = some (sqliteFormat (digitsToNat d1) (digitsToNat d2)
          (digitsToNat d3)) := by
  have s1 := takeWhile_append_stop Char.isDigit d1
    ('.' :: (d2 ++ '.' :: (d3 ++ rest))) hd1
    (by
      intro w hw
      obtain rfl : '.' = w := Option.some.inj hw
      decide)
  have s2 := takeWhile_append_stop Char.isDigit d2
    ('.' :: (d3 ++ rest)) hd2
    (by
      intro w hw
      obtain rfl : '.' = w := Option.some.inj hw
      decide)
  have s3 := takeWhile_append_stop Char.isDigit d3 rest hd3 hrest
  show (sqliteMatch (d1 ++ '.' :: (d2 ++ '.' :: (d3 ++ rest)))).map _ = _
  have key : sqliteMatch (d1 ++ '.' :: (d2 ++ '.' :: (d3 ++ rest)))
      = some (digitsToNat d1, digitsToNat d2, digitsToNat d3) := by
    simp [sqliteMatch, dotThen, s1.1, s1.2, s2.1, s2.2, s3.1,
      List.isEmpty_iff, h1, h2, h3]
  rw [key]
  rfl

/-- Witness for C4 at the spec's examples `3.24.0` and `3.8.5`. -/
theorem convert_sqlite_formats_three_groups_witness :
    convert_sqlite_version "3.24.0" = some "3240000" ∧
    convert_sqlite_version "3.8.5" = some "3080500" := by
  constructor
  · have h := convert_sqlite_formats_three_groups ['3'] ['2', '4'] ['0'] []
      (by decide) (by decide) (by decide) (by decide) (by decide) (by decide)
      (by intro w hw; cases hw)
    have e : ("3.24.0" : String)
        = ⟨['3'] ++ '.' :: (['2', '4'] ++ '.' :: (['0'] ++ []))⟩ := by decide
    rw [e]
    exact h.trans (by decide)
  · have h := convert_sqlite_formats_three_groups ['3'] ['8'] ['5'] []
      (by decide) (by decide) (by decide) (by decide) (by decide) (by decide)
      (by intro w hw; cases hw)
    have e : ("3.8.5" : String)
        = ⟨['3'] ++ '.' :: (['8'] ++ '.' :: (['5'] ++ []))⟩ := by decide
    rw [e]
    exact h.trans (by decide)

/-- The spec's notion of a well-formed SQLite vendor version: the input
starts with three dot-separated (nonempty) integer groups; anything may
follow.  This is the second, spec-side definition against which the
converter's match failure is compared. -/
def SqliteVendorShape (cs : List Char) : Prop :=
  ∃ d1 d2 d3 rest, d1 ≠ [] ∧ d2 ≠ [] ∧ d3 ≠ [] ∧
    (∀ c ∈ d1, c.isDigit = true) ∧ (∀ c ∈ d2, c.isDigit = true) ∧
    (∀ c ∈ d3, c.isDigit = true) ∧
    cs = d1 ++ '.' :: (d2 ++ '.' :: (d3 ++ rest))

theorem dotThen_dot (cs2 : List Char)
    (k : List Char → Option (Nat × Nat × Nat)) :
    dotThen ('.' :: cs2) k = k cs2 := by
  simp [dotThen]

theorem sqliteMatch_some_shape (cs : List Char)
    (h : (sqliteMatch cs).isSome = true) : SqliteVendorShape cs := by
  unfold sqliteMatch at h
  by_cases e1 : (cs.takeWhile Char.isDigit).isEmpty = true
  · rw [if_pos e1] at h
    simp at h
  · rw [if_neg e1] at h
    cases hdw : cs.dropWhile Char.isDigit with
    | nil => rw [hdw] at h; simp [dotThen] at h
    | cons c cs2 =>
      rw [hdw] at h
      simp only [dotThen] at h
      by_cases hc : c = '.'
      · rw [if_pos hc] at h
        subst hc
        by_cases e2 : (cs2.takeWhile Char.isDigit).isEmpty = true
        · rw [if_pos e2] at h
          simp at h
        · rw [if_neg e2] at h
          cases hdw2 : cs2.dropWhile Char.isDigit with
          | nil => rw [hdw2] at h; simp [dotThen] at h
          | cons c2 cs3 =>
            rw [hdw2] at h
            simp only [dotThen] at h
            by_cases hc2 : c2 = '.'
            · rw [if_pos hc2] at h
              subst hc2
              by_cases e3 : (cs3.takeWhile Char.isDigit).isEmpty = true
              · rw [if_pos e3] at h
                simp at h
              · have hcs2 : cs2 = cs2.takeWhile Char.isDigit ++ '.' :: cs3 := by
                  conv_lhs =>
                    rw [← List.takeWhile_append_dropWhile Char.isDigit cs2]
                  rw [hdw2]
                have hcs3 : cs3
                    = cs3.takeWhile Char.isDigit
                      ++ cs3.dropWhile Char.isDigit :=
                  (List.takeWhile_append_dropWhile _ _).symm
                refine ⟨cs.takeWhile Char.isDigit, cs2.takeWhile Char.isDigit,
                  cs3.takeWhile Char.isDigit, cs3.dropWhile Char.isDigit,
                  ?_, ?_, ?_, ?_, ?_, ?_, ?_⟩
                · simpa [List.isEmpty_iff] using e1
                · simpa [List.isEmpty_iff] using e2
                · simpa [List.isEmpty_iff] using e3
                · intro x hx; exact List.mem_takeWhile_imp hx
                · intro x hx; exact List.mem_takeWhile_imp hx
                · intro x hx; exact List.mem_takeWhile_imp hx
                · conv_lhs =>
                    rw [← List.takeWhile_append_dropWhile Char.isDigit cs]
                  rw [hdw]
                  conv_lhs => rw [hcs2]
                  conv_lhs => rw [hcs3]
            · rw [if_neg hc2] at h
              simp at h
      · rw [if_neg hc] at h
        simp at h

theorem sqliteMatch_shape_some (cs : List Char) (h : SqliteVendorShape cs) :
    (sqliteMatch cs).isSome = true := by
  obtain ⟨d1, d2, d3, rest, h1, h2, h3, hd1, hd2, hd3, rfl⟩ := h
  have s1 := takeWhile_append_stop Char.isDigit d1
    ('.' :: (d2 ++ '.' :: (d3 ++ rest))) hd1
    (by
      intro w hw
      obtain rfl : '.' = w := Option.some.inj hw
      decide)
  have s2 := takeWhile_append_stop Char.isDigit d2
    ('.' :: (d3 ++ rest)) hd2
    (by
      intro w hw
      obtain rfl : '.' = w := Option.some.inj hw
      decide)
  obtain ⟨c3, d3', rfl⟩ : ∃ c3 d3', d3 = c3 :: d3' := by
    cases d3 with
    | nil => exact absurd rfl h3
    | cons c3 d3' => exact ⟨c3, d3', rfl⟩
  have s3ne : ((c3 :: d3') ++ rest).takeWhile Char.isDigit ≠ [] := by
    rw [List.cons_append, List.takeWhile_cons_of_pos (hd3 c3 (by simp))]
    simp
  unfold sqliteMatch
  rw [s1.1, s1.2]
  rw [if_neg (by simp [List.isEmpty_iff, h1])]
  simp only [dotThen_dot]
  rw [s2.1, s2.2]
  rw [if_neg (by simp [List.isEmpty_iff, h2])]
  simp only [dotThen_dot]
  rw [if_neg (by simpa [List.isEmpty_iff] using s3ne)]
  simp

/-- Claim C5: on every input that does not start with three dot-separated
integer groups, `convert_sqlite_version` fails (the regex does not match,
`None` is subscripted and an exception propagates — rendered `none` here);
it never returns a partial or garbage string. -/
theorem convert_sqlite_fails_without_three_groups (cs : List Char)
    (h : ¬ SqliteVendorShape cs) : convert_sqlite_version ⟨cs⟩ = none := by
  cases hm : sqliteMatch cs with
  | none =>
    show (sqliteMatch cs).map _ = none
    rw [hm]
    rfl
  | some t => exact absurd (sqliteMatch_some_shape cs (by simp [hm])) h

/-- Witness for C5 at the spec's examples `abc` and `3.24`. -/
theorem convert_sqlite_fails_without_three_groups_witness :
    convert_sqlite_version "abc" = none ∧
    convert_sqlite_version "3.24" = none := by
  constructor
  · exact convert_sqlite_fails_without_three_groups "abc".data
      (fun h => absurd (sqliteMatch_shape_some "abc".data h) (by decide))
  · exact convert_sqlite_fails_without_three_groups "3.24".data
      (fun h => absurd (sqliteMatch_shape_some "3.24".data h) (by decide))

/-! ## Machinery for idempotence of the substitution pass (claim C10) -/

/-- Does `q` occur as a contiguous substring of the second list? -/
def occursIn (q : List Char) : List Char → Bool
  | [] => q.isEmpty
  | c :: r => q.isPrefixOf (c :: r) || occursIn q r

theorem occursIn_of_pfx_sfx (q r2 R : List Char) (hs : r2 <:+ R)
    (hp : q <+: r2) : occursIn q R = true := by
  induction R with
  | nil =>
    obtain rfl := List.suffix_nil.mp hs
    obtain rfl := List.prefix_nil.mp hp
    rfl
  | cons c R' ih =>
    rcases List.suffix_cons_iff.mp hs with rfl | hs'
    · simp [occursIn, List.isPrefixOf_iff_prefix.mpr hp]
    · simp [occursIn, ih hs']

theorem takeWhile_isEmpty_iff {α : Type} (p : α → Bool) (l : List α) :
    (l.takeWhile p).isEmpty = true ↔
      ∀ d, l.head? = some d → p d = false := by
  cases l with
  | nil => simp
  | cons a l' =>
    by_cases hpa : p a = true
    · rw [List.takeWhile_cons_of_pos hpa]
      simp only [List.isEmpty_cons]
      constructor
      · intro h
        cases h
      · intro h
        have := h a rfl
        rw [hpa] at this
        cases this
    · rw [List.takeWhile_cons_of_neg hpa]
      simp only [List.isEmpty_nil, true_iff]
      intro d hd
      obtain rfl := Option.some.inj hd
      simpa using hpa

theorem tryMatch_isSome_iff (q X : List Char) :
    (tryMatch q X).isSome = true ↔
      q <+: X ∧ ∃ d, (X.drop q.length).head? = some d ∧
        isPySpace d = false := by
  unfold tryMatch
  by_cases hp : q.isPrefixOf X = true
  · rw [if_pos hp]
    have hpre := List.isPrefixOf_iff_prefix.mp hp
    by_cases he :
        ((X.drop q.length).takeWhile (fun c => !isPySpace c)).isEmpty = true
    · rw [if_pos he]
      refine iff_of_false (by simp) ?_
      rintro ⟨-, d, hd, hws⟩
      have := (takeWhile_isEmpty_iff (fun c => !isPySpace c) _).mp he d hd
      rw [hws] at this
      cases this
    · rw [if_neg he]
      simp only [Option.isSome_some, true_iff]
      refine ⟨hpre, ?_⟩
      rw [takeWhile_isEmpty_iff] at he
      push_neg at he
      obtain ⟨d, hd, hdp⟩ := he
      refine ⟨d, hd, ?_⟩
      simpa using hdp
  · rw [if_neg hp]
    refine iff_of_false (by simp) ?_
    rintro ⟨h1, -⟩
    exact hp (List.isPrefixOf_iff_prefix.mpr h1)

theorem pySub_head_ws (pat R : List Char) (hpat_ne : pat ≠ [])
    (hpat_ws : ∀ c ∈ pat, isPySpace c = false) (rest : List Char)
    (hrest : ∀ w, rest.head? = some w → isPySpace w = true) :
    ∀ w, (pySub pat R rest).head? = some w → isPySpace w = true := by
  cases rest with
  | nil =>
    intro w hw
    rw [pySub_nil] at hw
    cases hw
  | cons x r' =>
    have hx : isPySpace x = true := hrest x rfl
    rw [pySub_skip pat R x r'
      (tryMatch_ws_head_none pat hpat_ne hpat_ws x hx r')]
    intro w hw
    obtain rfl := Option.some.inj hw
    exact hx

theorem tryMatch_none_in_replacement (q R t : List Char)
    (hq_ws : ∀ c ∈ q, isPySpace c = false)
    (hocc : occursIn q R = false)
    (ht : t = [] ∨ ∃ w t', t = w :: t' ∧ isPySpace w = true)
    (r2 : List Char) (hr2 : r2 <:+ R) :
    tryMatch q (r2 ++ t) = none := by
  cases hx : tryMatch q (r2 ++ t) with
  | none => rfl
  | some s =>
    exfalso
    have hsome : (tryMatch q (r2 ++ t)).isSome = true := by rw [hx]; rfl
    obtain ⟨hpre, d, hd, hdws⟩ := (tryMatch_isSome_iff q (r2 ++ t)).mp hsome
    by_cases hlen : q.length ≤ r2.length
    · have hq2 : q <+: r2 := by
        have h1 : q = (r2 ++ t).take q.length :=
          List.prefix_iff_eq_take.mp hpre
        rw [List.take_append_of_le_length hlen] at h1
        exact h1 ▸ List.take_prefix _ _
      rw [occursIn_of_pfx_sfx q r2 R hr2 hq2] at hocc
      cases hocc
    · push_neg at hlen
      have hr2q : r2 <+: q :=
        List.prefix_of_prefix_length_le (List.prefix_append r2 t) hpre
          (by omega)
      obtain ⟨q2, rfl⟩ := hr2q
      have hq2ne : q2 ≠ [] := by
        intro e
        rw [e] at hlen
        simp at hlen
      obtain ⟨w2, hw2⟩ := hpre
      rw [List.append_assoc] at hw2
      have ht2 : q2 ++ w2 = t := List.append_cancel_left hw2
      rcases ht with rfl | ⟨w, t', rfl, hws⟩
      · apply hq2ne
        cases q2 with
        | nil => rfl
        | cons a b => cases ht2
      · obtain ⟨a, q2', rfl⟩ : ∃ a q2', q2 = a :: q2' := by
          cases q2 with
          | nil => exact absurd rfl hq2ne
          | cons a q2' => exact ⟨a, q2', rfl⟩
        have ha : a = w := by
          have := congrArg List.head? ht2
          simpa using this
        have haws : isPySpace a = false := hq_ws a (by simp)
        rw [ha, hws] at haws
        cases haws

theorem pySub_agree (pat R : List Char) (hpat_ne : pat ≠ [])
    (hpat_ws : ∀ c ∈ pat, isPySpace c = false)
    (hR : R.head? = some '\x01') (cs : List Char) :
    pySub pat R cs = cs ∨
      ∃ s0 z z', cs = s0 ++ z ∧ pySub pat R cs = s0 ++ z' ∧
        (∃ d, z.head? = some d ∧ isPySpace d = false) ∧
        z'.head? = some '\x01' := by
  induction cs with
  | nil => exact Or.inl (pySub_nil pat R)
  | cons c cs' ih =>
    cases h : tryMatch pat (c :: cs') with
    | some rest =>
      right
      refine ⟨[], c :: cs', R ++ pySub pat R rest, by simp, ?_, ?_, ?_⟩
      · simpa using pySub_match pat R (c :: cs') rest h
      · obtain ⟨run, hdec, -, -, -⟩ := tryMatch_some_decomp pat (c :: cs') rest h
        obtain ⟨p0, pat', rfl⟩ : ∃ p0 pat', pat = p0 :: pat' := by
          cases pat with
          | nil => exact absurd rfl hpat_ne
          | cons p0 pat' => exact ⟨p0, pat', rfl⟩
        have hc : c = p0 := by
          have := congrArg List.head? hdec
          simpa using this
        exact ⟨c, rfl, by rw [hc]; exact hpat_ws p0 (by simp)⟩
      · cases R with
        | nil => cases hR
        | cons r0 R' => simpa using hR
    | none =>
      rw [pySub_skip pat R c cs' h]
      rcases ih with hid | ⟨s0, z, z', hcs, hout, hz, hz'⟩
      · exact Or.inl (by rw [hid])
      · right
        exact ⟨c :: s0, z, z', by rw [hcs, List.cons_append],
          by rw [hout, List.cons_append], hz, hz'⟩

/-- Core lemma for idempotence: substituting the pattern `pat` by the
replacement `R` leaves no match of the scan pattern `q` in the output,
provided `q` had no match in the input (or `q` is `pat` itself), `q` does
not occur inside `R`, `q` is nonempty, whitespace-free and does not contain
the control character U+0001 that `R` starts with. -/
theorem pySub_no_new_match (pat R q : List Char)
    (hq_ne : q ≠ []) (hq_ws : ∀ c ∈ q, isPySpace c = false)
    (hq_x : '\x01' ∉ q)
    (hpat_ne : pat ≠ []) (hpat_ws : ∀ c ∈ pat, isPySpace c = false)
    (hR_head : R.head? = some '\x01')
    (hocc : occursIn q R = false) :
    ∀ n cs, cs.length ≤ n → (hasVerMatch q cs = false ∨ q = pat) →
      hasVerMatch q (pySub pat R cs) = false := by
  intro n
  induction n with
  | zero =>
    intro cs hn _
    have hcs : cs = [] := by
      cases cs with
      | nil => rfl
      | cons a l => simp at hn
    subst hcs
    rw [pySub_nil]
    rfl
  | succ n ih =>
    intro cs hn hin
    cases h : tryMatch pat cs with
    | some rest =>
      rw [pySub_match _ _ _ _ h]
      obtain ⟨run, hdec, hrun_ne, hrun_ws, hrest_head⟩ :=
        tryMatch_some_decomp pat cs rest h
      have hrest_n : rest.length ≤ n := by
        have := tryMatch_some_lt pat cs rest h
        omega
      have hin_rest : hasVerMatch q rest = false ∨ q = pat := by
        rcases hin with hq | hq
        · left
          rw [hdec] at hq
          exact hasVerMatch_false_append q (pat ++ run) rest hq
        · right
          exact hq
      have hout_rest := ih rest hrest_n hin_rest
      have hout_head : ∀ w, (pySub pat R rest).head? = some w →
          isPySpace w = true :=
        pySub_head_ws pat R hpat_ne hpat_ws rest hrest_head
      have hout_shape : pySub pat R rest = [] ∨
          ∃ w t', pySub pat R rest = w :: t' ∧ isPySpace w = true := by
        cases hc : pySub pat R rest with
        | nil => exact Or.inl rfl
        | cons w t' => exact Or.inr ⟨w, t', rfl, hout_head w (by rw [hc]; rfl)⟩
      apply hasVerMatch_append_of q R (pySub pat R rest) ?_ hout_rest
      intro r2 hr2
      exact tryMatch_none_in_replacement q R (pySub pat R rest) hq_ws hocc
        hout_shape r2 hr2
    | none =>
      cases cs with
      | nil =>
        rw [pySub_nil]
        rfl
      | cons c cs' =>
        rw [pySub_skip _ _ _ _ h]
        have hin' : hasVerMatch q cs' = false ∨ q = pat := by
          rcases hin with hq | hq
          · left
            simp only [hasVerMatch, Bool.or_eq_false_iff] at hq
            exact hq.2
          · right
            exact hq
        have htail := ih cs' (by simp only [List.length_cons] at hn; omega)
          hin'
        simp only [hasVerMatch, Bool.or_eq_false_iff]
        refine ⟨?_, htail⟩
        have hq_in_head : tryMatch q (c :: cs') = none := by
          rcases hin with hq | hq
          · simp only [hasVerMatch, Bool.or_eq_false_iff] at hq
            exact Option.not_isSome_iff_eq_none.mp (by simp [hq.1])
          · rw [hq]
            exact h
        cases hx : tryMatch q (c :: pySub pat R cs') with
        | none => rfl
        | some s =>
          exfalso
          have hsome : (tryMatch q (c :: pySub pat R cs')).isSome = true := by
            rw [hx]
            rfl
          obtain ⟨hpre, d, hd, hdws⟩ := (tryMatch_isSome_iff _ _).mp hsome
          obtain ⟨q0, q', rfl⟩ : ∃ q0 q', q = q0 :: q' := by
            cases q with
            | nil => exact absurd rfl hq_ne
            | cons q0 q' => exact ⟨q0, q', rfl⟩
          have hq0 : q0 = c := (List.cons_prefix_cons.mp hpre).1
          have hq'pre : q' <+: pySub pat R cs' :=
            (List.cons_prefix_cons.mp hpre).2
          have hd2 : ((pySub pat R cs').drop q'.length).head? = some d := by
            simpa [List.drop_succ_cons] using hd
          rcases pySub_agree pat R hpat_ne hpat_ws hR_head cs' with
            hid | ⟨s0, z, z', hcs, hout, ⟨dz, hdz, hdzws⟩, hz'⟩
          · rw [hid] at hq'pre hd2
            have : (tryMatch (q0 :: q') (c :: cs')).isSome = true := by
              apply (tryMatch_isSome_iff _ _).mpr
              refine ⟨List.cons_prefix_cons.mpr ⟨hq0, hq'pre⟩, d, ?_, hdws⟩
              simpa [List.drop_succ_cons] using hd2
            rw [hq_in_head] at this
            cases this
          · rw [hout] at hq'pre hd2
            by_cases hlen : q'.length ≤ s0.length
            · have hq's0 : q' <+: s0 := by
                have h1 : q' = (s0 ++ z').take q'.length :=
                  List.prefix_iff_eq_take.mp hq'pre
                rw [List.take_append_of_le_length hlen] at h1
                exact h1 ▸ List.take_prefix _ _
              have hq'cs' : q' <+: cs' := by
                rw [hcs]
                exact hq's0.trans (List.prefix_append s0 z)
              by_cases heq : q'.length = s0.length
              · have hq's0' : q' = s0 := hq's0.eq_of_length heq
                have : (tryMatch (q0 :: q') (c :: cs')).isSome = true := by
                  apply (tryMatch_isSome_iff _ _).mpr
                  refine ⟨List.cons_prefix_cons.mpr ⟨hq0, hq'cs'⟩, dz, ?_,
                    hdzws⟩
                  rw [show ((c :: cs').drop (q0 :: q').length)
                      = cs'.drop q'.length from by
                    simp [List.drop_succ_cons]]
                  rw [hcs, hq's0', List.drop_left]
                  exact hdz
                rw [hq_in_head] at this
                cases this
              · have hlt : q'.length < s0.length :=
                  lt_of_le_of_ne hlen heq
                have hs0ne : s0.drop q'.length ≠ [] := by
                  intro e
                  have := List.drop_eq_nil_iff.mp e
                  omega
                have hout_f : ((s0 ++ z').drop q'.length).head?
                    = (s0.drop q'.length).head? := by
                  rw [List.drop_append_of_le_length hlen]
                  exact List.head?_append_of_ne_nil _ hs0ne
                have hin_f : ((s0 ++ z).drop q'.length).head?
                    = (s0.drop q'.length).head? := by
                  rw [List.drop_append_of_le_length hlen]
                  exact List.head?_append_of_ne_nil _ hs0ne
                have : (tryMatch (q0 :: q') (c :: cs')).isSome = true := by
                  apply (tryMatch_isSome_iff _ _).mpr
                  refine ⟨List.cons_prefix_cons.mpr ⟨hq0, hq'cs'⟩, d, ?_,
                    hdws⟩
                  rw [show ((c :: cs').drop (q0 :: q').length)
                      = cs'.drop q'.length from by
                    simp [List.drop_succ_cons]]
                  rw [hcs, hin_f, ← hout_f]
                  exact hd2
                rw [hq_in_head] at this
                cases this
            · push_neg at hlen
              have hs0q' : s0 <+: q' :=
                List.prefix_of_prefix_length_le (List.prefix_append s0 z')
                  hq'pre (by omega)
              obtain ⟨w, rfl⟩ := hs0q'
              have hw_ne : w ≠ [] := by
                intro e
                rw [e] at hlen
                simp at hlen
              have hw_pre : w <+: z' := by
                obtain ⟨tail2, htail2⟩ := hq'pre
                rw [List.append_assoc] at htail2
                exact ⟨tail2, List.append_cancel_left htail2⟩
              obtain ⟨w0, w', rfl⟩ : ∃ w0 w', w = w0 :: w' := by
                cases w with
                | nil => exact absurd rfl hw_ne
                | cons w0 w' => exact ⟨w0, w', rfl⟩
              have hw0 : w0 = '\x01' := by
                obtain ⟨t2, ht2⟩ := hw_pre
                have := congrArg List.head? ht2
                rw [hz'] at this
                simpa using this
              apply hq_x
              rw [← hw0]
              simp

/-- A well-behaved package map for idempotence: prefixes are whitespace-free
and do not contain U+0001, values are whitespace-free, and no replacement
text contains an occurrence of any of the map's `{prefix}_VER=` patterns. -/
def GoodMap (m : List (List Char × List Char)) : Prop :=
  ∀ pv ∈ m, (∀ c ∈ pv.1, isPySpace c = false ∧ c ≠ '\x01') ∧
    (∀ c ∈ pv.2, isPySpace c = false) ∧
    (∀ qv ∈ m, occursIn (verPattern qv.1) (verReplacement pv.2) = false)

theorem verPattern_not_x01 (pfx : List Char)
    (hp : ∀ c ∈ pfx, c ≠ '\x01') : '\x01' ∉ verPattern pfx := by
  intro hm
  simp only [verPattern, List.mem_append] at hm
  rcases hm with hm | hm
  · exact hp _ hm rfl
  · exact absurd hm (by decide)

theorem verReplacement_head (v : List Char) :
    (verReplacement v).head? = some '\x01' := rfl

theorem substLine_preserve (m : List (List Char × List Char))
    (q : List Char) (hq_ne : q ≠ [])
    (hq_ws : ∀ c ∈ q, isPySpace c = false) (hq_x : '\x01' ∉ q)
    (hm : ∀ pv ∈ m, verPattern pv.1 ≠ [] ∧
      (∀ c ∈ verPattern pv.1, isPySpace c = false) ∧
      occursIn q (verReplacement pv.2) = false) :
    ∀ line, hasVerMatch q line = false →
      hasVerMatch q (substLine m line) = false := by
  induction m with
  | nil => intro line hline; exact hline
  | cons pv m' ih =>
    intro line hline
    show hasVerMatch q
      (substLine m' (pySub (verPattern pv.1) (verReplacement pv.2) line))
      = false
    apply ih (fun x hx => hm x (by simp [hx]))
    exact pySub_no_new_match (verPattern pv.1) (verReplacement pv.2) q
      hq_ne hq_ws hq_x (hm pv (by simp)).1 (hm pv (by simp)).2.1
      (verReplacement_head _) (hm pv (by simp)).2.2 line.length line le_rfl
      (Or.inl hline)

theorem substLine_clears :
    ∀ (m : List (List Char × List Char)), GoodMap m → ∀ line, ∀ pv ∈ m,
      hasVerMatch (verPattern pv.1) (substLine m line) = false := by
  intro m
  induction m with
  | nil =>
    intro _ line pv hpv
    cases hpv
  | cons x m' ih =>
    intro hgood line pv hpv
    show hasVerMatch (verPattern pv.1)
      (substLine m' (pySub (verPattern x.1) (verReplacement x.2) line))
      = false
    rcases List.mem_cons.mp hpv with rfl | hpv'
    · have hpx_ne := verPattern_ne_nil pv.1
      have hpx_ws := verPattern_nonspace pv.1
        (fun c hc => ((hgood pv (by simp)).1 c hc).1)
      have hpx_x : '\x01' ∉ verPattern pv.1 :=
        verPattern_not_x01 pv.1 (fun c hc => ((hgood pv (by simp)).1 c hc).2)
      have hestab : hasVerMatch (verPattern pv.1)
          (pySub (verPattern pv.1) (verReplacement pv.2) line) = false :=
        pySub_no_new_match _ _ _ hpx_ne hpx_ws hpx_x hpx_ne hpx_ws
          (verReplacement_head _) ((hgood pv (by simp)).2.2 pv (by simp))
          line.length line le_rfl (Or.inr rfl)
      exact substLine_preserve m' (verPattern pv.1) hpx_ne hpx_ws hpx_x
        (fun y hy => ⟨verPattern_ne_nil y.1,
          verPattern_nonspace y.1
            (fun c hc => ((hgood y (by simp [hy])).1 c hc).1),
          (hgood y (by simp [hy])).2.2 pv (by simp)⟩)
        _ hestab
    · have hgood' : GoodMap m' := by
        intro y hy
        obtain ⟨hy1, hy2, hy3⟩ := hgood y (by simp [hy])
        exact ⟨hy1, hy2, fun z hz => hy3 z (by simp [hz])⟩
      exact ih hgood' (pySub (verPattern x.1) (verReplacement x.2) line)
        pv hpv'

/-- Claim C10 counterexample: a map whose single value `SSL_VER=x` contains
no whitespace, yet the substitution pass is not idempotent on the line
`SSL_VER=1`: the first pass yields `\x01"SSL_VER=x"`, in which the value
itself now forms a fresh `SSL_VER=` token, so a second pass rewrites it
again to `\x01"\x01"SSL_VER=x"`. -/
theorem substLine_not_idempotent_cx :
    (∀ c ∈ "SSL_VER=x".data, isPySpace c = false) ∧
    substLine [("SSL".data, "SSL_VER=x".data)]
        (substLine [("SSL".data, "SSL_VER=x".data)] "SSL_VER=1".data)
      ≠ substLine [("SSL".data, "SSL_VER=x".data)] "SSL_VER=1".data := by
  constructor
  · decide
  · decide

/-- Claim C10 (amended): the per-line substitution pass is idempotent for
every map whose values contain no whitespace, provided additionally that no
map prefix's `{prefix}_VER=` pattern occurs as a substring of any inserted
replacement text `\x01"value"` (without this proviso the counterexample
above applies; for prefixes free of double quotes the proviso is exactly
that no value contains such a pattern, since the pattern cannot straddle
the quotes or the U+0001) and the prefixes consist of ordinary characters:
no whitespace and no U+0001 (all real prefixes are uppercase ASCII
words). -/
theorem substLine_idempotent_of_good_map
    (m : List (List Char × List Char)) (line : List Char)
    (hgood : GoodMap m) :
    substLine m (substLine m line) = substLine m line :=
  substLine_untouched m (substLine m line) (substLine_clears m hgood line)

/-- Witness for amended C10 on a two-prefix map and a line containing both
tokens. -/
theorem substLine_idempotent_of_good_map_witness :
    GoodMap [("SSL".data, "1.0.2o".data), ("CURL".data, "8.12.1".data)] ∧
    substLine [("SSL".data, "1.0.2o".data), ("CURL".data, "8.12.1".data)]
        (substLine [("SSL".data, "1.0.2o".data), ("CURL".data, "8.12.1".data)]
          "SSL_VER=\"1.0.2n\" CURL_VER=x\n".data)
      = substLine [("SSL".data, "1.0.2o".data), ("CURL".data, "8.12.1".data)]
          "SSL_VER=\"1.0.2n\" CURL_VER=x\n".data :=
  ⟨by unfold GoodMap; decide,
   substLine_idempotent_of_good_map _ _ (by unfold GoodMap; decide)⟩
